import Mathlib

/-!
Verification of the sortutil runtime type-dispatch sorting core
(`sortutil.go`).

The embedding models the extracted comparison keys as a closed inductive
type `RVal` of reflected values, mirroring the kinds the classifier in
`Sorter.Sort` distinguishes (string, bool, the signed and unsigned integer
kinds, the float kinds, the whitelisted `time.Time` type, and everything
else).  The fourteen ordering predicates are translated clause for clause
from the `Less` methods of the source.  The underlying comparison sort
(`sort.Sort` from the Go standard library) is an external collaborator and
out of scope per the spec; it is modelled as a stable insertion sort over
the {Len, Less, Swap} capability set.  Go float64 values are modelled as
`Option` of a rational, with `none` playing the role of NaN: every IEEE
comparison involving NaN is false, and comparisons of ordinary values are
numeric, which is exactly the behaviour the predicates in the source rely
on.
-/

namespace Sortutil

/-- Model of a Go float64: `none` is NaN, `some q` an ordinary numeric
value (modelled as a rational). -/
abbrev Flt := Option ℚ

/-- IEEE strict less-than on modelled floats: any comparison involving NaN
is false, ordinary values compare numerically. -/
def fltLt : Flt → Flt → Bool
  | some a, some b => decide (a < b)
  | _, _ => false

/-- Model of `math.IsNaN`. -/
def isNaN : Flt → Bool
  | none => true
  | some _ => false

/-- A reflected key value, the input of the kind classifier in
`Sorter.Sort`.  One constructor per classified family: `vstr` covers kind
String, `vbool` kind Bool, `vint` the signed integer kinds (any width),
`vuint` the unsigned kinds, `vfloat` the float kinds, `vtime` the
whitelisted `time.Time` type (a timestamp, modelled by its chronological
position as an integer, so that `Before`/`After` become integer
comparison), and `vother` every type the classifier does not recognize. -/
inductive RVal where
  | vstr (s : String)
  | vbool (b : Bool)
  | vint (i : Int)
  | vuint (u : Nat)
  | vfloat (f : Flt)
  | vtime (t : Int)
  | vother
deriving DecidableEq

/-- Model of `reflect.Value.String()`.  In Go the accessor is only invoked
on values of the matching kind (the dispatch in `Sorter.Sort` guarantees
it for the first key); a mismatched call is modelled by a default. -/
def RVal.str : RVal → String
  | .vstr s => s
  | _ => ""

/-- Model of `reflect.Value.Bool()`. -/
def RVal.bool : RVal → Bool
  | .vbool b => b
  | _ => false

/-- Model of `reflect.Value.Int()`. -/
def RVal.int : RVal → Int
  | .vint i => i
  | _ => 0

/-- Model of `reflect.Value.Uint()`. -/
def RVal.uint : RVal → Nat
  | .vuint u => u
  | _ => 0

/-- Model of `reflect.Value.Float()`. -/
def RVal.float : RVal → Flt
  | .vfloat f => f
  | _ => some 0

/-- Model of the `time.Time` extraction
`vals[i].Interface().(time.Time)`. -/
def RVal.time : RVal → Int
  | .vtime t => t
  | _ => 0

/-- The kind classification performed by the outer `switch s.valKind` of
`Sorter.Sort`, folded together with the inner `switch s.valType` that
recognizes `t_time`: `kother` is the default/default branch that panics
with "Cannot sort by type". -/
inductive RKind where
  | kstring
  | kbool
  | kint
  | kuint
  | kfloat
  | ktime
  | kother
deriving DecidableEq

/-- Classify a reflected value, as `Sorter.Sort` does from the first
extracted key. -/
def kindOf : RVal → RKind
  | .vstr _ => .kstring
  | .vbool _ => .kbool
  | .vint _ => .kint
  | .vuint _ => .kuint
  | .vfloat _ => .kfloat
  | .vtime _ => .ktime
  | .vother => .kother

/-- The `Ordering` enumeration of the source. -/
inductive Ordering where
  | Ascending
  | Descending
  | CaseInsensitiveAscending
  | CaseInsensitiveDescending
deriving DecidableEq

/-- Model of `strings.ToLower`, applied rune-wise (the inputs of interest
are ASCII, where `Char.toLower` agrees with the Go function). -/
def goToLower (s : String) : String :=
  String.mk (s.data.map Char.toLower)

/-- Lexicographic strict comparison of character sequences. -/
def charListLt : List Char → List Char → Bool
  | [], [] => false
  | [], _ :: _ => true
  | _ :: _, [] => false
  | a :: as, b :: bs =>
    if a < b then true else if b < a then false else charListLt as bs

/-- Model of the Go `<` on strings: byte-wise lexicographic comparison of
the UTF-8 encodings, which coincides with lexicographic comparison of the
code-point sequences. -/
def goStrLt (a b : String) : Bool :=
  charListLt a.data b.data

/-- `stringAscending.Less`: `vals[i].String() < vals[j].String()`. -/
def stringAscendingLess (a b : RVal) : Bool :=
  goStrLt a.str b.str

/-- `stringDescending.Less`: `vals[i].String() > vals[j].String()`. -/
def stringDescendingLess (a b : RVal) : Bool :=
  goStrLt b.str a.str

/-- `stringInsensitiveAscending.Less`: lower-cased comparison. -/
def stringInsensitiveAscendingLess (a b : RVal) : Bool :=
  goStrLt (goToLower a.str) (goToLower b.str)

/-- `stringInsensitiveDescending.Less`: lower-cased comparison,
reversed. -/
def stringInsensitiveDescendingLess (a b : RVal) : Bool :=
  goStrLt (goToLower b.str) (goToLower a.str)

/-- `boolAscending.Less`: `!vals[i].Bool() && vals[j].Bool()`. -/
def boolAscendingLess (a b : RVal) : Bool :=
  !a.bool && b.bool

/-- `boolDescending.Less`: `vals[i].Bool() && !vals[j].Bool()`. -/
def boolDescendingLess (a b : RVal) : Bool :=
  a.bool && !b.bool

/-- `intAscending.Less`: `vals[i].Int() < vals[j].Int()`. -/
def intAscendingLess (a b : RVal) : Bool :=
  decide (a.int < b.int)

/-- `intDescending.Less`: `vals[i].Int() > vals[j].Int()`. -/
def intDescendingLess (a b : RVal) : Bool :=
  decide (b.int < a.int)

/-- `uintAscending.Less`: `vals[i].Uint() < vals[j].Uint()`. -/
def uintAscendingLess (a b : RVal) : Bool :=
  decide (a.uint < b.uint)

/-- `uintDescending.Less`: `vals[i].Uint() > vals[j].Uint()`. -/
def uintDescendingLess (a b : RVal) : Bool :=
  decide (b.uint < a.uint)

/-- `floatAscending.Less`:
`a < b || math.IsNaN(a) && !math.IsNaN(b)`. -/
def floatAscendingLess (a b : RVal) : Bool :=
  fltLt a.float b.float || (isNaN a.float && !isNaN b.float)

/-- `floatDescending.Less`:
`a > b || !math.IsNaN(a) && math.IsNaN(b)`. -/
def floatDescendingLess (a b : RVal) : Bool :=
  fltLt b.float a.float || (!isNaN a.float && isNaN b.float)

/-- `timeAscending.Less`: `vals[i].(time.Time).Before(vals[j])`. -/
def timeAscendingLess (a b : RVal) : Bool :=
  decide (a.time < b.time)

/-- `timeDescending.Less`: `vals[i].(time.Time).After(vals[j])`. -/
def timeDescendingLess (a b : RVal) : Bool :=
  decide (b.time < a.time)

/-- The fatal conditions of `Sorter.Sort`, named as the spec names them:
`emptyCollection` is the abort on a collection with no first key,
`unsupportedType` the panic "Cannot sort by type", and
`invalidOrderingForKind` the per-kind panics "Invalid ordering ... for
...". -/
inductive SortError where
  | emptyCollection
  | unsupportedType
  | invalidOrderingForKind (k : RKind)
deriving DecidableEq

/-- The ordering-predicate dispatch of `Sorter.Sort`: the nested
`switch s.valKind` / `switch s.Ordering` statements, with each `panic`
branch mapped to the corresponding fatal condition. -/
def selectLess (k : RKind) (o : Ordering) : Except SortError (RVal → RVal → Bool) :=
  match k with
  | .kstring =>
    match o with
    | .Ascending => .ok stringAscendingLess
    | .Descending => .ok stringDescendingLess
    | .CaseInsensitiveAscending => .ok stringInsensitiveAscendingLess
    | .CaseInsensitiveDescending => .ok stringInsensitiveDescendingLess
  | .kbool =>
    match o with
    | .Ascending => .ok boolAscendingLess
    | .Descending => .ok boolDescendingLess
    | _ => .error (.invalidOrderingForKind .kbool)
  | .kint =>
    match o with
    | .Ascending => .ok intAscendingLess
    | .Descending => .ok intDescendingLess
    | _ => .error (.invalidOrderingForKind .kint)
  | .kuint =>
    match o with
    | .Ascending => .ok uintAscendingLess
    | .Descending => .ok uintDescendingLess
    | _ => .error (.invalidOrderingForKind .kuint)
  | .kfloat =>
    match o with
    | .Ascending => .ok floatAscendingLess
    | .Descending => .ok floatDescendingLess
    | _ => .error (.invalidOrderingForKind .kfloat)
  | .ktime =>
    match o with
    | .Ascending => .ok timeAscendingLess
    | .Descending => .ok timeDescendingLess
    | _ => .error (.invalidOrderingForKind .ktime)
  | .kother => .error .unsupportedType

/-- Modelled from the spec: the underlying comparison-exchange sort
(`sort.Sort` of the Go standard library, explicitly out of scope and
consumed as a black-box "sort by capability {Len, Less, Swap}" primitive)
is modelled as a stable insertion sort driven by the given less
predicate on the extracted keys, acting on (key, element) pairs exactly
as the Sorter does: its Less reads the key slice and its Swap exchanges
key and element together. -/
def sortPairs {α : Type u} (less : RVal → RVal → Bool) (l : List (RVal × α)) :
    List (RVal × α) :=
  List.insertionSort (fun p q => less q.1 p.1 = false) l

/-- Embedding of `Sorter.Sort` (the method name `Sort` is reserved in
Lean).  The getter is the per-element key extraction; the source applies
it to the whole collection with the contract that `keys[i]` corresponds
to `collection[i]`.  An empty collection aborts before classification
(the source indexes `s.vals[0]`); otherwise the kind of the first key and
the requested ordering select the predicate, or abort, exactly as the
nested switch of the source does.  The result is the permuted
collection; the permuted key slice is its image under the getter. -/
def sortRun {α : Type u} (g : α → RVal) (o : Ordering) (xs : List α) :
    Except SortError (List α) :=
  match xs with
  | [] => .error .emptyCollection
  | x0 :: _ =>
    match selectLess (kindOf (g x0)) o with
    | .error e => .error e
    | .ok less => .ok ((sortPairs less (xs.map fun x => (g x, x))).map Prod.snd)

/-- The state of the `Sorter` adapter during a sort: `V` the collection,
`G` the getter, `vals` the extracted key slice. -/
structure Sorter (α : Type u) where
  V : List α
  G : α → RVal
  ordering : Ordering
  vals : List RVal

/-- The element exchange of `Sorter.Swap` and of `Reverse`:
`tmp := l[i]; l[i] = l[j]; l[j] = tmp` (a no-op when an index is out of
range; the sort only presents in-range indices). -/
def listSwap {β : Type u} (l : List β) (i j : Nat) : List β :=
  match l[i]?, l[j]? with
  | some a, some b => (l.set i b).set j a
  | _, _ => l

/-- Embedding of `Sorter.Swap`.  The source swaps the two collection
elements through reflection; because each extracted key `vals[p]` is a
reflected view into the element at position `p`, the key slice is swapped
in lockstep (the source comment: "Updating the structs causes s.vals[i],
s.vals[j] to (essentially) be swapped, too").  The embedding makes that
aliasing explicit by swapping both sequences. -/
def Sorter.Swap {α : Type u} (s : Sorter α) (i j : Nat) : Sorter α :=
  { s with V := listSwap s.V i j, vals := listSwap s.vals i j }

/-- Embedding of `Reverse`: the two-pointer loop
`for i, j := 0, s.Len()-1; i < j; i, j = i+1, j-1 { s.Swap(i, j) }`. -/
def reverseLoop {β : Type u} (l : List β) (i j : Nat) : List β :=
  if i < j then reverseLoop (listSwap l i j) (i + 1) (j - 1) else l
termination_by j - i
decreasing_by omega

/-- `Reverse` applied to a sequence of length n starts the two pointers
at 0 and n - 1. -/
def Reverse {β : Type u} (l : List β) : List β :=
  reverseLoop l 0 (l.length - 1)

/-- The number of `Swap` calls the loop of `Reverse` performs between
pointer positions i and j: one per iteration, read off the same loop
structure as `reverseLoop` (which performs exactly one `listSwap` per
iteration). -/
def reverseSwapCount (i j : Nat) : Nat :=
  if i < j then reverseSwapCount (i + 1) (j - 1) + 1 else 0
termination_by j - i
decreasing_by omega

/-- The number of swaps `Reverse` performs on a sequence of length n. -/
def reverseSwaps {β : Type u} (l : List β) : Nat :=
  reverseSwapCount 0 (l.length - 1)

/-- Embedding of `SortReverse`: sort with the built-in ordering of the
capability (modelled, as in `sortPairs`, by a stable insertion sort on the
given element-level less predicate), then reverse. -/
def SortReverse {β : Type u} (less : β → β → Bool) (l : List β) : List β :=
  Reverse (List.insertionSort (fun a b => less b a = false) l)

/-!
Order-theoretic facts about the predicates of the table.  Every predicate
is the strict order of a linear order pulled back along an accessor, so
each is asymmetric and has a transitive complement; these two facts are
what sortedness of the exchange sort needs.
-/

/-- Asymmetry and transitivity of the complement, the shape shared by
every predicate of the ordering table. -/
structure StrictWeak (less : RVal → RVal → Bool) : Prop where
  asymm : ∀ a b, less a b = true → less b a = false
  negtrans : ∀ a b c, less b a = false → less c b = false → less c a = false

theorem lt_pullback_false {γ : Type v} [LinearOrder γ] (f : RVal → γ)
    (less : RVal → RVal → Bool) (h : ∀ a b, less a b = true ↔ f a < f b)
    (a b : RVal) : less a b = false ↔ f b ≤ f a := by
  rw [← not_lt, ← h a b]
  cases hab : less a b <;> simp

theorem strictWeak_of_key {γ : Type v} [LinearOrder γ] (f : RVal → γ)
    (less : RVal → RVal → Bool) (h : ∀ a b, less a b = true ↔ f a < f b) :
    StrictWeak less := by
  constructor
  · intro a b hab
    rw [lt_pullback_false f less h]
    exact le_of_lt ((h a b).1 hab)
  · intro a b c h1 h2
    rw [lt_pullback_false f less h] at h1 h2 ⊢
    exact le_trans h1 h2

theorem strictWeak_of_key_desc {γ : Type v} [LinearOrder γ] (f : RVal → γ)
    (less : RVal → RVal → Bool) (h : ∀ a b, less a b = true ↔ f b < f a) :
    StrictWeak less :=
  strictWeak_of_key (γ := γᵒᵈ) (fun v => OrderDual.toDual (f v)) less
    (fun a b => by simpa using h a b)

/-- `charListLt` decides the lexicographic strict order on `List Char`. -/
theorem charListLt_iff_lex :
    ∀ as bs : List Char, charListLt as bs = true ↔ List.Lex (· < ·) as bs := by
  intro as
  induction as with
  | nil =>
    intro bs
    cases bs with
    | nil =>
      simp only [charListLt, Bool.false_eq_true, false_iff]
      exact List.Lex.not_nil_right _ _
    | cons b bs =>
      simp only [charListLt, true_iff]
      exact List.Lex.nil
  | cons a as ih =>
    intro bs
    cases bs with
    | nil =>
      simp only [charListLt, Bool.false_eq_true, false_iff]
      exact List.Lex.not_nil_right _ _
    | cons b bs =>
      rw [charListLt]
      by_cases hab : a < b
      · simp only [hab, if_true, true_iff]
        exact List.Lex.rel hab
      · by_cases hba : b < a
        · simp only [hab, hba, if_true, if_false, Bool.false_eq_true, false_iff]
          intro hlex
          cases hlex with
          | cons h => exact lt_irrefl _ hba
          | rel h => exact hab h
        · have hEq : a = b := le_antisymm (not_lt.mp hba) (not_lt.mp hab)
          subst hEq
          simp only [hab, hba, if_false]
          rw [ih bs]
          exact (List.Lex.cons_iff).symm

/-- The strict order of the `LinearOrder` instance on `List Char` is the
lexicographic order, so `charListLt` decides it. -/
theorem charListLt_iff_lt (as bs : List Char) :
    charListLt as bs = true ↔ as < bs :=
  charListLt_iff_lex as bs

/-- Rank of a modelled float: the predicates of the source place NaN
below every numeric value. -/
def frank : Flt → WithBot ℚ
  | none => ⊥
  | some q => (q : WithBot ℚ)

theorem floatAscendingLess_iff (a b : RVal) :
    floatAscendingLess a b = true ↔ frank a.float < frank b.float := by
  rcases ha : a.float with _ | qa <;> rcases hb : b.float with _ | qb <;>
    simp [floatAscendingLess, fltLt, isNaN, frank, ha, hb, WithBot.bot_lt_coe]

theorem floatDescendingLess_iff (a b : RVal) :
    floatDescendingLess a b = true ↔ frank b.float < frank a.float := by
  rcases ha : a.float with _ | qa <;> rcases hb : b.float with _ | qb <;>
    simp [floatDescendingLess, fltLt, isNaN, frank, ha, hb, WithBot.bot_lt_coe]

theorem stringAscendingLess_strictWeak : StrictWeak stringAscendingLess :=
  strictWeak_of_key (fun v => v.str.data) _
    (fun a b => charListLt_iff_lt a.str.data b.str.data)

theorem stringDescendingLess_strictWeak : StrictWeak stringDescendingLess :=
  strictWeak_of_key_desc (fun v => v.str.data) _
    (fun a b => charListLt_iff_lt b.str.data a.str.data)

theorem stringInsensitiveAscendingLess_strictWeak :
    StrictWeak stringInsensitiveAscendingLess :=
  strictWeak_of_key (fun v => (goToLower v.str).data) _
    (fun a b => charListLt_iff_lt (goToLower a.str).data (goToLower b.str).data)

theorem stringInsensitiveDescendingLess_strictWeak :
    StrictWeak stringInsensitiveDescendingLess :=
  strictWeak_of_key_desc (fun v => (goToLower v.str).data) _
    (fun a b => charListLt_iff_lt (goToLower b.str).data (goToLower a.str).data)

theorem boolAscendingLess_strictWeak : StrictWeak boolAscendingLess :=
  strictWeak_of_key (fun v => v.bool) _
    (fun a b => by
      cases ha : a.bool <;> cases hb : b.bool <;>
        simp [boolAscendingLess, ha, hb])

theorem boolDescendingLess_strictWeak : StrictWeak boolDescendingLess :=
  strictWeak_of_key_desc (fun v => v.bool) _
    (fun a b => by
      cases ha : a.bool <;> cases hb : b.bool <;>
        simp [boolDescendingLess, ha, hb])

theorem intAscendingLess_strictWeak : StrictWeak intAscendingLess :=
  strictWeak_of_key (fun v => v.int) _
    (fun a b => by simp [intAscendingLess])

theorem intDescendingLess_strictWeak : StrictWeak intDescendingLess :=
  strictWeak_of_key_desc (fun v => v.int) _
    (fun a b => by simp [intDescendingLess])

theorem uintAscendingLess_strictWeak : StrictWeak uintAscendingLess :=
  strictWeak_of_key (fun v => v.uint) _
    (fun a b => by simp [uintAscendingLess])

theorem uintDescendingLess_strictWeak : StrictWeak uintDescendingLess :=
  strictWeak_of_key_desc (fun v => v.uint) _
    (fun a b => by simp [uintDescendingLess])

theorem floatAscendingLess_strictWeak : StrictWeak floatAscendingLess :=
  strictWeak_of_key (fun v => frank v.float) _ floatAscendingLess_iff

theorem floatDescendingLess_strictWeak : StrictWeak floatDescendingLess :=
  strictWeak_of_key_desc (fun v => frank v.float) _ floatDescendingLess_iff

theorem timeAscendingLess_strictWeak : StrictWeak timeAscendingLess :=
  strictWeak_of_key (fun v => v.time) _
    (fun a b => by simp [timeAscendingLess])

theorem timeDescendingLess_strictWeak : StrictWeak timeDescendingLess :=
  strictWeak_of_key_desc (fun v => v.time) _
    (fun a b => by simp [timeDescendingLess])

/-- Every predicate the dispatch of `Sorter.Sort` can select is
asymmetric with a transitive complement. -/
theorem selectLess_strictWeak (k : RKind) (o : Ordering)
    (less : RVal → RVal → Bool) (h : selectLess k o = Except.ok less) :
    StrictWeak less := by
  cases k <;> cases o <;>
    simp only [selectLess, Except.ok.injEq, reduceCtorEq] at h <;>
    subst h <;>
    first
      | exact stringAscendingLess_strictWeak
      | exact stringDescendingLess_strictWeak
      | exact stringInsensitiveAscendingLess_strictWeak
      | exact stringInsensitiveDescendingLess_strictWeak
      | exact boolAscendingLess_strictWeak
      | exact boolDescendingLess_strictWeak
      | exact intAscendingLess_strictWeak
      | exact intDescendingLess_strictWeak
      | exact uintAscendingLess_strictWeak
      | exact uintDescendingLess_strictWeak
      | exact floatAscendingLess_strictWeak
      | exact floatDescendingLess_strictWeak
      | exact timeAscendingLess_strictWeak
      | exact timeDescendingLess_strictWeak

/-!
Correctness of the sort pipeline.  The paired (key, element) sort commutes
with projecting out the elements, because the pair relation only inspects
the key of each pair; on elements the model therefore sorts with the
predicate applied to the extracted keys.
-/

/-- Projecting the elements out of the paired sort yields the insertion
sort of the collection ordered by the extracted keys. -/
theorem sortPairs_map_snd {α : Type u} (less : RVal → RVal → Bool)
    (g : α → RVal) (xs : List α) :
    (sortPairs less (xs.map fun x => (g x, x))).map Prod.snd
      = List.insertionSort (fun a b : α => less (g b) (g a) = false) xs := by
  unfold sortPairs
  rw [← List.map_insertionSort (fun a b : α => less (g b) (g a) = false)
        (fun p q : RVal × α => less q.1 p.1 = false)
        (fun x => (g x, x)) xs (fun a _ b _ => Iff.rfl)]
  rw [List.map_map]
  exact List.map_id _

/-- Characterization of a successful `sortRun` on a non-empty collection:
it returns the insertion sort of the collection by the selected
predicate on extracted keys. -/
theorem sortRun_ok {α : Type u} (g : α → RVal) (o : Ordering) (x0 : α)
    (rest : List α) (less : RVal → RVal → Bool)
    (hsel : selectLess (kindOf (g x0)) o = Except.ok less) :
    sortRun g o (x0 :: rest)
      = Except.ok
          (List.insertionSort (fun a b : α => less (g b) (g a) = false)
            (x0 :: rest)) := by
  simp only [sortRun, hsel, sortPairs_map_snd]

/-- The insertion sort by a `StrictWeak` predicate on extracted keys
yields a chain in the complement relation. -/
theorem chain'_insertionSort_elem {α : Type u} (less : RVal → RVal → Bool)
    (hsw : StrictWeak less) (g : α → RVal) (xs : List α) :
    List.Chain' (fun a b : α => less (g b) (g a) = false)
      (List.insertionSort (fun a b : α => less (g b) (g a) = false) xs) := by
  haveI : IsTotal α (fun a b => less (g b) (g a) = false) :=
    ⟨fun a b => by
      cases hab : less (g b) (g a) with
      | false => exact Or.inl rfl
      | true => exact Or.inr (hsw.asymm _ _ hab)⟩
  haveI : IsTrans α (fun a b => less (g b) (g a) = false) :=
    ⟨fun a b c h1 h2 => hsw.negtrans _ _ _ h1 h2⟩
  exact (List.sorted_insertionSort _ xs).chain'

/-- C1: for every non-empty collection whose extracted keys have a
supported kind and a valid ordering for that kind (expressed by the
hypothesis that the dispatch selects a less predicate), after the sort
returns, the sequence of extracted keys is sorted with respect to the
selected ordering predicate: for all i with i + 1 < len, not
less(key[i+1], key[i]). -/
theorem sort_result_sorted {α : Type u} (g : α → RVal) (o : Ordering)
    (x0 : α) (rest : List α) (less : RVal → RVal → Bool) (ys : List α)
    (hsel : selectLess (kindOf (g x0)) o = Except.ok less)
    (hok : sortRun g o (x0 :: rest) = Except.ok ys) :
    ∀ (i : Nat) (h1 : i + 1 < (ys.map g).length) (h0 : i < (ys.map g).length),
      less ((ys.map g).get ⟨i + 1, h1⟩) ((ys.map g).get ⟨i, h0⟩) = false := by
  rw [sortRun_ok g o x0 rest less hsel, Except.ok.injEq] at hok
  subst hok
  have hchain :=
    chain'_insertionSort_elem less (selectLess_strictWeak _ _ _ hsel) g (x0 :: rest)
  have hmap : List.Chain' (fun u v : RVal => less v u = false)
      ((List.insertionSort (fun a b : α => less (g b) (g a) = false)
        (x0 :: rest)).map g) :=
    (List.chain'_map g).mpr hchain
  intro i h1 h0
  exact List.chain'_iff_get.mp hmap i (by omega)

/-- Witness for C1 at the integer collection [2, 1] sorted ascending. -/
theorem sort_result_sorted_witness :
    intAscendingLess ((([1, 2] : List Int).map RVal.vint).get ⟨1, by decide⟩)
      ((([1, 2] : List Int).map RVal.vint).get ⟨0, by decide⟩) = false :=
  sort_result_sorted RVal.vint Ordering.Ascending 2 [1] intAscendingLess
    [1, 2] rfl rfl 0 (by decide) (by decide)

/-- Swapping two positions commutes with mapping the getter over the
collection. -/
theorem listSwap_map {β : Type u} {γ : Type v} (f : β → γ) (l : List β)
    (i j : Nat) :
    listSwap (l.map f) i j = (listSwap l i j).map f := by
  unfold listSwap
  simp only [List.getElem?_map]
  cases hi : l[i]? <;> cases hj : l[j]? <;> simp [List.map_set]

/-- C2: `Sorter.Swap` exchanges both the keys and the elements at
positions i and j, so the alignment invariant - at every position p the
key is the one extracted from the element at p - is preserved by each
swap of the sort. -/
theorem swap_keeps_alignment {α : Type u} (s : Sorter α) (i j : Nat)
    (h : ∀ p : Nat, s.vals[p]? = (s.V[p]?).map s.G) :
    ∀ p : Nat, (s.Swap i j).vals[p]? = ((s.Swap i j).V[p]?).map s.G := by
  have hv : s.vals = s.V.map s.G := by
    apply List.ext_getElem?
    intro p
    rw [h p, List.getElem?_map]
  intro p
  show (listSwap s.vals i j)[p]? = ((listSwap s.V i j)[p]?).map s.G
  rw [hv, listSwap_map, List.getElem?_map]

/-- Witness for C2: a two-element boolean collection with the identity
getter, swapped at 0 and 1. -/
theorem swap_keeps_alignment_witness :
    (Sorter.Swap
        ⟨[true, false], RVal.vbool, Ordering.Ascending,
          [RVal.vbool true, RVal.vbool false]⟩ 0 1).vals[0]?
      = ((Sorter.Swap
            ⟨[true, false], RVal.vbool, Ordering.Ascending,
              [RVal.vbool true, RVal.vbool false]⟩ 0 1).V[0]?).map RVal.vbool :=
  swap_keeps_alignment
    ⟨[true, false], RVal.vbool, Ordering.Ascending,
      [RVal.vbool true, RVal.vbool false]⟩ 0 1
    (fun p => match p with
      | 0 => rfl
      | 1 => rfl
      | _ + 2 => rfl)
    0

/-- C4: sorting an empty collection aborts with the EmptyCollection fatal
condition (the source indexes the first extracted key before classifying,
so the call can never return normally). -/
theorem empty_collection_fatal {α : Type u} (g : α → RVal) (o : Ordering) :
    sortRun g o ([] : List α) = Except.error SortError.emptyCollection :=
  rfl

/-- C5: requesting a case-insensitive ordering for any supported
non-string kind is fatal with InvalidOrderingForKind, never silently
coerced. -/
theorem ci_ordering_fatal_for_nonstring {α : Type u} (g : α → RVal)
    (o : Ordering) (x0 : α) (rest : List α)
    (ho : o = Ordering.CaseInsensitiveAscending
        ∨ o = Ordering.CaseInsensitiveDescending)
    (hns : kindOf (g x0) ≠ RKind.kstring)
    (hsupp : kindOf (g x0) ≠ RKind.kother) :
    sortRun g o (x0 :: rest)
      = Except.error (SortError.invalidOrderingForKind (kindOf (g x0))) := by
  rcases ho with rfl | rfl <;>
    rcases hk : kindOf (g x0) with _ | _ | _ | _ | _ | _ | _ <;>
      first
        | exact absurd hk hns
        | exact absurd hk hsupp
        | (simp only [sortRun]; rw [hk]; rfl)

/-- Witness for C5: a boolean collection with case-insensitive ascending
ordering. -/
theorem ci_ordering_fatal_witness :
    sortRun RVal.vbool Ordering.CaseInsensitiveAscending [true]
      = Except.error (SortError.invalidOrderingForKind (kindOf (RVal.vbool true))) :=
  ci_ordering_fatal_for_nonstring RVal.vbool _ true [] (Or.inl rfl)
    (by decide) (by decide)

/-- C6: a first extracted key of no supported kind and not of the
whitelisted timestamp type makes the sort fail fatally with
UnsupportedType, for every requested ordering. -/
theorem unsupported_type_fatal {α : Type u} (g : α → RVal) (o : Ordering)
    (x0 : α) (rest : List α) (hk : kindOf (g x0) = RKind.kother) :
    sortRun g o (x0 :: rest) = Except.error SortError.unsupportedType := by
  simp only [sortRun]
  rw [hk]
  rfl

/-- Witness for C6: a singleton collection whose key is an unrecognized
value. -/
theorem unsupported_type_fatal_witness :
    sortRun (fun _ : Unit => RVal.vother) Ordering.Ascending [()]
      = Except.error SortError.unsupportedType :=
  unsupported_type_fatal (fun _ : Unit => RVal.vother) Ordering.Ascending () [] rfl

/-- C3 counterexample: the ascending less-predicate declares NaN LESS
than the non-NaN value 0 (so NaN sorts before everything in ascending
order), contradicting the claim that the ascending predicate treats NaN
as greater than every non-NaN value, under which this comparison would
have to be false. -/
theorem float_nan_ascending_counterexample :
    floatAscendingLess (RVal.vfloat none) (RVal.vfloat (some 0)) = true :=
  rfl

/-- C3 amended: for floating-point keys the ascending less-predicate
treats NaN as less than every non-NaN value (NaN sorts before everything
in ascending order), and the descending less-predicate treats every
non-NaN value as less than NaN (NaN sorts after everything in descending
order); NaN is treated as smaller than any non-NaN value under both
orderings. -/
theorem float_nan_placement (q : ℚ) :
    floatAscendingLess (RVal.vfloat none) (RVal.vfloat (some q)) = true
    ∧ floatAscendingLess (RVal.vfloat (some q)) (RVal.vfloat none) = false
    ∧ floatDescendingLess (RVal.vfloat (some q)) (RVal.vfloat none) = true
    ∧ floatDescendingLess (RVal.vfloat none) (RVal.vfloat (some q)) = false :=
  ⟨rfl, rfl, rfl, rfl⟩

/-!
The in-place reversal.  The two-pointer loop is characterized pointwise:
it agrees with list reversal, and its swap count between pointers i and j
is (j - i + 1) / 2, hence length / 2 overall.
-/

theorem listSwap_length {β : Type u} (l : List β) (i j : Nat) :
    (listSwap l i j).length = l.length := by
  unfold listSwap
  cases hi : l[i]? <;> cases hj : l[j]? <;> simp

theorem listSwap_getElem? {β : Type u} (l : List β) (i j k : Nat)
    (hi : i < l.length) (hj : j < l.length) :
    (listSwap l i j)[k]? =
      if k = i then l[j]? else if k = j then l[i]? else l[k]? := by
  unfold listSwap
  rw [List.getElem?_eq_getElem hi, List.getElem?_eq_getElem hj]
  simp only [List.getElem?_set]
  rcases eq_or_ne k i with rfl | hki
  · rcases eq_or_ne k j with rfl | hkj <;> simp_all [List.getElem?_eq_getElem]
  · rcases eq_or_ne k j with rfl | hkj
    · simp_all [List.getElem?_eq_getElem]
    · rw [if_neg (fun h => hkj h.symm), if_neg (fun h => hki h.symm),
        if_neg hki, if_neg hkj]

theorem reverseLoop_length {β : Type u} :
    ∀ (d : Nat) (l : List β) (i j : Nat), j - i ≤ d →
      (reverseLoop l i j).length = l.length := by
  intro d
  induction d with
  | zero =>
    intro l i j hd
    rw [reverseLoop, if_neg (by omega)]
  | succ n ih =>
    intro l i j hd
    by_cases hij : i < j
    · rw [reverseLoop, if_pos hij, ih (listSwap l i j) (i + 1) (j - 1) (by omega),
        listSwap_length]
    · rw [reverseLoop, if_neg hij]

/-- Pointwise characterization of the two-pointer loop: inside the active
window [i, j] positions are mirrored, outside they are untouched. -/
theorem reverseLoop_getElem? {β : Type u} :
    ∀ (d : Nat) (l : List β) (i j k : Nat), j - i ≤ d → j < l.length →
      (reverseLoop l i j)[k]? =
        if i ≤ k ∧ k ≤ j ∧ i ≤ j then l[i + j - k]? else l[k]? := by
  intro d
  induction d with
  | zero =>
    intro l i j k hd hj
    rw [reverseLoop, if_neg (by omega)]
    by_cases h : i ≤ k ∧ k ≤ j ∧ i ≤ j
    · rw [if_pos h]
      exact congrArg (fun t => l[t]?) (by omega)
    · rw [if_neg h]
  | succ n ih =>
    intro l i j k hd hj
    by_cases hij : i < j
    · have hi : i < l.length := by omega
      rw [reverseLoop, if_pos hij,
        ih (listSwap l i j) (i + 1) (j - 1) k (by omega)
          (by rw [listSwap_length]; omega),
        listSwap_getElem? l i j ((i + 1) + (j - 1) - k) hi hj,
        listSwap_getElem? l i j k hi hj]
      split_ifs <;>
        first
          | rfl
          | (exact congrArg (fun t => l[t]?) (by omega))
    · rw [reverseLoop, if_neg hij]
      by_cases h : i ≤ k ∧ k ≤ j ∧ i ≤ j
      · rw [if_pos h]
        exact congrArg (fun t => l[t]?) (by omega)
      · rw [if_neg h]

/-- The two-pointer loop of `Reverse` computes list reversal. -/
theorem Reverse_eq_reverse {β : Type u} (l : List β) :
    Reverse l = l.reverse := by
  cases l with
  | nil => simp [Reverse, reverseLoop]
  | cons a t =>
    apply List.ext_getElem?
    intro k
    have hlen : (a :: t).length - 1 < (a :: t).length := by simp
    simp only [Reverse]
    rw [reverseLoop_getElem? ((a :: t).length - 1) (a :: t) 0
      ((a :: t).length - 1) k (by omega) hlen]
    by_cases hk : k < (a :: t).length
    · rw [if_pos ⟨Nat.zero_le _, by omega, by omega⟩,
        List.getElem?_reverse hk]
      exact congrArg (fun m => (a :: t)[m]?) (by omega)
    · rw [if_neg (by omega), List.getElem?_eq_none (by omega),
        List.getElem?_eq_none (by rw [List.length_reverse]; omega)]

theorem reverseSwapCount_eq :
    ∀ (d i j : Nat), j - i ≤ d → reverseSwapCount i j = (j - i + 1) / 2 := by
  intro d
  induction d with
  | zero =>
    intro i j hd
    rw [reverseSwapCount, if_neg (by omega)]
    omega
  | succ n ih =>
    intro i j hd
    by_cases hij : i < j
    · rw [reverseSwapCount, if_pos hij, ih (i + 1) (j - 1) (by omega)]
      omega
    · rw [reverseSwapCount, if_neg hij]
      omega

/-- C9: `Reverse` reverses in place by the two-pointer sweep: the element
at position i afterwards is the one originally at position n - 1 - i, and
the loop performs exactly floor(n / 2) swaps (and consults no comparison
predicate: the loop is defined without one). -/
theorem reverse_spec {β : Type u} (l : List β) :
    (∀ i : Nat, i < l.length → (Reverse l)[i]? = l[l.length - 1 - i]?)
    ∧ reverseSwaps l = l.length / 2 := by
  constructor
  · intro i hi
    rw [Reverse_eq_reverse, List.getElem?_reverse hi]
  · rw [reverseSwaps,
      reverseSwapCount_eq (l.length - 1) 0 (l.length - 1) (by omega)]
    omega

/-- Witness for C9 on the three-element list [10, 20, 30]. -/
theorem reverse_spec_witness :
    (Reverse ([10, 20, 30] : List Nat))[0]? = some 30
    ∧ reverseSwaps ([10, 20, 30] : List Nat) = 1 :=
  ⟨by rw [(reverse_spec ([10, 20, 30] : List Nat)).1 0 (by decide)]; rfl,
    (reverse_spec ([10, 20, 30] : List Nat)).2⟩

/-- C7: for an integer-kind collection with pairwise distinct keys,
sorting ascending and then applying `Reverse` gives the same final
sequence as sorting descending directly. -/
theorem asc_reverse_eq_desc {α : Type u} (g : α → RVal) (x0 : α)
    (rest : List α) (A D : List α)
    (hkind : kindOf (g x0) = RKind.kint)
    (hdist : (x0 :: rest).Pairwise (fun x y => (g x).int ≠ (g y).int))
    (hA : sortRun g Ordering.Ascending (x0 :: rest) = Except.ok A)
    (hD : sortRun g Ordering.Descending (x0 :: rest) = Except.ok D) :
    Reverse A = D := by
  have hselA : selectLess (kindOf (g x0)) Ordering.Ascending
      = Except.ok intAscendingLess := by rw [hkind]; rfl
  have hselD : selectLess (kindOf (g x0)) Ordering.Descending
      = Except.ok intDescendingLess := by rw [hkind]; rfl
  rw [sortRun_ok g _ x0 rest _ hselA, Except.ok.injEq] at hA
  rw [sortRun_ok g _ x0 rest _ hselD, Except.ok.injEq] at hD
  subst hA
  subst hD
  have hAfalse : ∀ x y : RVal, intAscendingLess x y = false ↔ y.int ≤ x.int :=
    fun x y => by simp [intAscendingLess, not_lt]
  have hDfalse : ∀ x y : RVal, intDescendingLess x y = false ↔ x.int ≤ y.int :=
    fun x y => by simp [intDescendingLess, not_lt]
  haveI : IsTrans α (fun a b => intAscendingLess (g b) (g a) = false) :=
    ⟨fun a b c h1 h2 => intAscendingLess_strictWeak.negtrans _ _ _ h1 h2⟩
  haveI : IsTrans α (fun a b => intDescendingLess (g b) (g a) = false) :=
    ⟨fun a b c h1 h2 => intDescendingLess_strictWeak.negtrans _ _ _ h1 h2⟩
  have hPA :=
    List.chain'_iff_pairwise.mp
      (chain'_insertionSort_elem intAscendingLess intAscendingLess_strictWeak g
        (x0 :: rest))
  have hPD :=
    List.chain'_iff_pairwise.mp
      (chain'_insertionSort_elem intDescendingLess intDescendingLess_strictWeak g
        (x0 :: rest))
  have hPAle : List.Pairwise (fun a b : α => (g a).int ≤ (g b).int)
      (List.insertionSort (fun a b : α => intAscendingLess (g b) (g a) = false)
        (x0 :: rest)) :=
    hPA.imp (fun h => (hAfalse _ _).mp h)
  have hPDle : List.Pairwise (fun a b : α => (g b).int ≤ (g a).int)
      (List.insertionSort (fun a b : α => intDescendingLess (g b) (g a) = false)
        (x0 :: rest)) :=
    hPD.imp (fun h => (hDfalse _ _).mp h)
  have hpermA := List.perm_insertionSort
    (fun a b : α => intAscendingLess (g b) (g a) = false) (x0 :: rest)
  have hpermD := List.perm_insertionSort
    (fun a b : α => intDescendingLess (g b) (g a) = false) (x0 :: rest)
  have hdistA := (hpermA.pairwise_iff (fun h => Ne.symm h)).mpr hdist
  have hdistD := (hpermD.pairwise_iff (fun h => Ne.symm h)).mpr hdist
  have hStrictA := hPAle.imp₂
    (fun a b hle hne => lt_of_le_of_ne hle hne) hdistA
  have hStrictD := hPDle.imp₂
    (fun a b hle hne => lt_of_le_of_ne hle (fun h => hne h.symm)) hdistD
  have hRevStrict : List.Pairwise (fun a b : α => (g b).int < (g a).int)
      (List.insertionSort (fun a b : α => intAscendingLess (g b) (g a) = false)
        (x0 :: rest)).reverse :=
    List.pairwise_reverse.mpr hStrictA
  have hperm : List.Perm
      (List.insertionSort (fun a b : α => intAscendingLess (g b) (g a) = false)
        (x0 :: rest)).reverse
      (List.insertionSort (fun a b : α => intDescendingLess (g b) (g a) = false)
        (x0 :: rest)) :=
    ((List.reverse_perm _).trans hpermA).trans hpermD.symm
  haveI : IsAntisymm α (fun a b : α => (g b).int < (g a).int) :=
    ⟨fun a b h1 h2 => absurd h1 (lt_asymm h2)⟩
  rw [Reverse_eq_reverse]
  exact List.eq_of_perm_of_sorted hperm hRevStrict hStrictD

/-- Witness for C7 on the integer collection [2, 1, 3]. -/
theorem asc_reverse_eq_desc_witness :
    Reverse ([1, 2, 3] : List Int) = [3, 2, 1] :=
  asc_reverse_eq_desc RVal.vint 2 [1, 3] [1, 2, 3] [3, 2, 1] rfl (by decide)
    rfl rfl

/-- C8: the case-insensitive ascending sort of {"A","a","b","C"} compares
all values by their lowered form and keeps the original relative order
among keys that are equal when lowered (the sort model is stable),
producing exactly ["A","a","b","C"]. -/
theorem ci_ascending_concrete :
    sortRun RVal.vstr Ordering.CaseInsensitiveAscending ["A", "a", "b", "C"]
      = Except.ok ["A", "a", "b", "C"] :=
  rfl

/-- C10: every mutating operation of the library only permutes the
collection: a sort that returns normally, the reversal, and
sort-then-reverse all return a permutation of the input (an aborting sort
returns the fatal condition without producing a collection; the errors
are raised before any swap). -/
theorem mutations_permute {α : Type u} :
    (∀ (g : α → RVal) (o : Ordering) (xs ys : List α),
        sortRun g o xs = Except.ok ys → ys.Perm xs)
    ∧ (∀ l : List α, (Reverse l).Perm l)
    ∧ (∀ (less : α → α → Bool) (l : List α), (SortReverse less l).Perm l) := by
  refine ⟨?_, ?_, ?_⟩
  · intro g o xs ys hok
    cases xs with
    | nil => simp [sortRun] at hok
    | cons x0 rest =>
      cases hsel : selectLess (kindOf (g x0)) o with
      | error e => simp [sortRun, hsel] at hok
      | ok less =>
        rw [sortRun_ok g o x0 rest less hsel, Except.ok.injEq] at hok
        subst hok
        exact List.perm_insertionSort _ _
  · intro l
    rw [Reverse_eq_reverse]
    exact l.reverse_perm
  · intro less l
    show (Reverse (List.insertionSort (fun a b => less b a = false) l)).Perm l
    rw [Reverse_eq_reverse]
    exact (List.reverse_perm _).trans (List.perm_insertionSort _ _)

/-- Witness for C10: the ascending integer sort of [2, 1] returns [1, 2],
a permutation of the input. -/
theorem mutations_permute_witness : ([1, 2] : List Int).Perm [2, 1] :=
  (mutations_permute (α := Int)).1 RVal.vint Ordering.Ascending [2, 1] [1, 2]
    rfl

end Sortutil
